import Mathlib

/-!
Shallow embedding of `src/providers/conference-data.ts` (the `ConferenceData`
Angular service of the Ionic conference app).

JavaScript strings are modelled as `List Char`; the dynamic (`any`-typed) raw
document is modelled with `Option` exactly where the code guards for absence
(`if (session.speakerNames)`, `if (session.tracks)`, and the top-level
`data.schedule` access which throws when the field is missing).  JavaScript
errors (`TypeError` from property access on `undefined`) are modelled with
`Except`.  In-place mutation (`session.hide = ...`, `data.speakers.sort(...)`)
is modelled by explicit state passing: each operation returns the updated
document next to its result.
-/

namespace ConfData

/-- Strings of the JavaScript source, modelled as lists of characters. -/
abbrev Str := List Char

/-- Model of `String.prototype.toLowerCase` (character-wise lowercasing). -/
def lowerStr (s : Str) : Str := s.map Char.toLower

/-- Model of the JavaScript whitespace class used by `String.prototype.trim`
(a representative subset: space, tab, newline, carriage return). -/
def wsChar (c : Char) : Bool :=
  c == ' ' || c == '\t' || c == '\n' || c == '\r'

/-- Model of `String.prototype.split(sep)` for a single-character separator:
`"a  b".split(' ') = ["a", "", "b"]`, `"".split(' ') = [""]`. -/
def splitCh (sep : Char) : Str → List Str
  | [] => [[]]
  | c :: rest =>
    match splitCh sep rest with
    | [] => [[c]]
    | w :: ws => if c = sep then [] :: w :: ws else (c :: w) :: ws

/-- Model of `haystack.indexOf(needle) > -1`: `needle` occurs as a contiguous
substring of `haystack` (the empty string occurs in every string). -/
def occursIn (needle : Str) : Str → Bool
  | [] => needle.isEmpty
  | c :: rest => needle.isPrefixOf (c :: rest) || occursIn needle rest

/-- Translation of the first step of the query normalization in
`getTimeline`: lowercase, then replace every comma, period and hyphen by a
space (the global regex replace of the source). -/
def normalizeQuery (q : Str) : Str :=
  (lowerStr q).map fun c => if c = ',' ∨ c = '.' ∨ c = '-' then ' ' else c

/-- Model of `w.trim().length` being nonzero: the token contains at least one
non-whitespace character. -/
def hasRealChar (w : Str) : Bool := w.any fun c => !(wsChar c)

/-- Translation of the full query normalization in `getTimeline`: lowercase,
replace commas, periods and hyphens by spaces, split on the space character,
and keep only tokens whose `trim()` is nonempty. -/
def queryWordsOf (q : Str) : List Str :=
  (splitCh ' ' (normalizeQuery q)).filter hasRealChar

/-- Raw speaker record, as documented in the `processData` comment block:
`name, profilePic, twitter, about, location, email, phone`. -/
structure Speaker where
  name : Str
  profilePic : Str
  twitter : Str
  about : Str
  location : Str
  email : Str
  phone : Str
deriving DecidableEq, Inhabited

/-- Raw session record.  `speakerNames` and `tracks` are `Option` because the
normalization code guards them (`if (session.speakerNames)`,
`if (session.tracks)`), so they may be absent in the raw document. -/
structure Session where
  name : Str
  description : Str
  speakerNames : Option (List Str)
  timeStart : Str
  timeEnd : Str
  location : Str
  tracks : Option (List Str)
deriving DecidableEq, Inhabited

/-- Raw timeline group: a time-slot bucket of sessions. -/
structure Group where
  time : Str
  sessions : List Session
deriving DecidableEq, Inhabited

/-- Raw day of the schedule. -/
structure Day where
  date : Str
  groups : List Group
deriving DecidableEq, Inhabited

/-- Map pin record (`name, lat, long, centre`). -/
structure MapPin where
  name : Str
  lat : Int
  long : Int
  centre : Bool
deriving DecidableEq, Inhabited

/-- Raw fetched document, top-level shape `{ schedule, speakers, map }`.
`schedule` is `Option` so that a malformed document (missing the required
`schedule` field, on which `processData` calls `.forEach` unguarded) is
representable. -/
structure RawDoc where
  schedule : Option (List Day)
  speakers : List Speaker
  map : List MapPin
deriving DecidableEq, Inhabited

/-- Normalized speaker: the raw fields plus the derived `sessions` list
(`speaker.sessions.push(session)`).  Sessions are identified by their flat
index in document order (day, then group, then session), which models the
object reference pushed by the source. -/
structure NSpeaker where
  name : Str
  profilePic : Str
  twitter : Str
  about : Str
  location : Str
  email : Str
  phone : Str
  sessions : List Nat
deriving DecidableEq, Inhabited

/-- Normalized session: the raw fields plus the derived `speakers` list
(indices into the document's speaker sequence, modelling the pushed object
references) and the `hide` annotation, absent (`none`) until a filter pass
writes it. -/
structure NSession where
  name : Str
  description : Str
  speakerNames : Option (List Str)
  timeStart : Str
  timeEnd : Str
  location : Str
  tracks : Option (List Str)
  speakers : List Nat
  hide : Option Bool
deriving DecidableEq, Inhabited

/-- Normalized group, with the derived `hide` annotation. -/
structure NGroup where
  time : Str
  sessions : List NSession
  hide : Option Bool
deriving DecidableEq, Inhabited

/-- Normalized day, with the derived `shownSessions` counter. -/
structure NDay where
  date : Str
  groups : List NGroup
  shownSessions : Option Nat
deriving DecidableEq, Inhabited

/-- Normalized document, as produced by `processData`: schedule, speakers,
the derived `tracks` list (`data.tracks = []` plus pushes), and the map pins. -/
structure NDoc where
  schedule : List NDay
  speakers : List NSpeaker
  tracks : List Str
  map : List MapPin
deriving DecidableEq, Inhabited

/-- JavaScript runtime errors relevant to this service.  `typeError` is what
property access on `undefined` throws.  `rangeError` and `loadError` are the
error kinds named by the specification; the code never produces them, they are
included so that statements about them can be expressed. -/
inductive JsError where
  | typeError
  | rangeError
  | loadError
deriving DecidableEq, Inhabited

/-- Initial normalized speaker: the raw fields, with an empty `sessions` list
(the source initializes it lazily via `speaker.sessions = speaker.sessions || []`). -/
def initNSpeaker (sp : Speaker) : NSpeaker :=
  { name := sp.name, profilePic := sp.profilePic, twitter := sp.twitter
    about := sp.about, location := sp.location, email := sp.email
    phone := sp.phone, sessions := [] }

/-- Updates the element at index `i` of a list in place, leaving the list
unchanged when `i` is out of range.  Models mutation of one object in an
array of object references. -/
def updateAt (i : Nat) (f : α → α) : List α → List α
  | [] => []
  | a :: l =>
    match i with
    | 0 => f a :: l
    | j + 1 => a :: updateAt j f l

/-- Model of `arr.find(p)`, returning the index of the first element
satisfying `p` (the source keeps the object reference; we keep its index). -/
def findIdxO (p : α → Bool) : List α → Option Nat
  | [] => none
  | a :: l => if p a then some 0 else (findIdxO p l).map (· + 1)

/-- Translation of the speaker-linking loop of `processSession`: for each
`speakerName`, find the first speaker with that name; when found, record its
index in the session's `speakers` list and push the session id `sid` onto the
speaker's `sessions` list.  Unmatched names are skipped. -/
def linkSpeakers (sid : Nat) : List NSpeaker → List Str → List NSpeaker × List Nat
  | sps, [] => (sps, [])
  | sps, n :: rest =>
    match findIdxO (fun sp => sp.name == n) sps with
    | some i =>
      let sps1 := updateAt i (fun sp => { sp with sessions := sp.sessions ++ [sid] }) sps
      let out := linkSpeakers sid sps1 rest
      (out.1, i :: out.2)
    | none => linkSpeakers sid sps rest

/-- Translation of the track loop of `processSession`: push each track onto
the global track list if `data.tracks.indexOf(track) < 0`. -/
def addTracks (tracks : List Str) (ts : List Str) : List Str :=
  ts.foldl (fun acc t => if acc.contains t then acc else acc ++ [t]) tracks

/-- Translation of `processSession(data, session)`: link speakers (when
`session.speakerNames` is present), collect tracks (when `session.tracks` is
present), and produce the normalized session (`session.speakers = [...]`,
`hide` not yet set). -/
def processSession (sid : Nat) (sps : List NSpeaker) (tracks : List Str)
    (s : Session) : List NSpeaker × List Str × NSession :=
  let linked :=
    match s.speakerNames with
    | some names => linkSpeakers sid sps names
    | none => (sps, [])
  let tracks1 :=
    match s.tracks with
    | some ts => addTracks tracks ts
    | none => tracks
  (linked.1, tracks1,
    { name := s.name, description := s.description, speakerNames := s.speakerNames
      timeStart := s.timeStart, timeEnd := s.timeEnd, location := s.location
      tracks := s.tracks, speakers := linked.2, hide := none })

/-- Translation of `group.sessions.forEach(session => processSession(...))`,
threading the speaker list, track list and flat session id. -/
def processSessions (sps : List NSpeaker) (tracks : List Str) (sid : Nat) :
    List Session → List NSpeaker × List Str × Nat × List NSession
  | [] => (sps, tracks, sid, [])
  | s :: rest =>
    let st := processSession sid sps tracks s
    let out := processSessions st.1 st.2.1 (sid + 1) rest
    (out.1, out.2.1, out.2.2.1, st.2.2 :: out.2.2.2)

/-- Translation of `day.groups.forEach(group => ...)` in `processData`. -/
def processGroups (sps : List NSpeaker) (tracks : List Str) (sid : Nat) :
    List Group → List NSpeaker × List Str × Nat × List NGroup
  | [] => (sps, tracks, sid, [])
  | g :: rest =>
    let st := processSessions sps tracks sid g.sessions
    let out := processGroups st.1 st.2.1 st.2.2.1 rest
    (out.1, out.2.1, out.2.2.1,
      { time := g.time, sessions := st.2.2.2, hide := none } :: out.2.2.2)

/-- Translation of `data.schedule.forEach(day => ...)` in `processData`. -/
def processDays (sps : List NSpeaker) (tracks : List Str) (sid : Nat) :
    List Day → List NSpeaker × List Str × Nat × List NDay
  | [] => (sps, tracks, sid, [])
  | d :: rest =>
    let st := processGroups sps tracks sid d.groups
    let out := processDays st.1 st.2.1 st.2.2.1 rest
    (out.1, out.2.1, out.2.2.1,
      { date := d.date, groups := st.2.2.2, shownSessions := none } :: out.2.2.2)

/-- Translation of `processData(data)`: set `data.tracks = []`, then walk the
schedule linking speakers and collecting tracks.  When the raw document has no
`schedule` field, `data.schedule.forEach` throws a `TypeError`. -/
def processData (raw : RawDoc) : Except JsError NDoc :=
  match raw.schedule with
  | none => .error .typeError
  | some days =>
    let st := processDays (raw.speakers.map initNSpeaker) [] 0 days
    .ok { schedule := st.2.2.2, speakers := st.1, tracks := st.2.1, map := raw.map }

/-- Outcome of the fetch performed by `load()` (the Angular `http.get`
observable either emits a response or errors). -/
inductive FetchResult where
  | ok (raw : RawDoc)
  | err
deriving DecidableEq, Inhabited

/-- Outcome of one `load()` call: the new cached state (`this.data`) together
with how the returned promise behaves.  `resolved` carries the document the
promise resolves with; `rejected` would carry an error the promise rejects
with (the code wires no rejection, the constructor exists so statements about
it can be made); `pending` is a promise that never settles. -/
inductive LoadOutcome where
  | resolved (state : Option NDoc) (doc : NDoc)
  | rejected (state : Option NDoc) (e : JsError)
  | pending (state : Option NDoc)
deriving DecidableEq, Inhabited

/-- Translation of `load()`, as a function of the cached state `this.data` and
the fetch outcome; the second component counts fetches performed by the call.
When data is cached the promise resolves immediately with it and no fetch
happens.  Otherwise one fetch is attempted; the subscription has no error
callback, so a failed fetch leaves the promise pending forever, and an
exception thrown by `processData` inside the `subscribe` callback likewise
never rejects the promise (and `this.data` is never assigned). -/
def load (state : Option NDoc) (fetch : FetchResult) : LoadOutcome × Nat :=
  match state with
  | some d => (.resolved (some d) d, 0)
  | none =>
    match fetch with
    | .err => (.pending none, 1)
    | .ok raw =>
      match processData raw with
      | .error _ => (.pending none, 1)
      | .ok d => (.resolved (some d) d, 1)

/-- The string `'favorites'` compared against the `segment` argument. -/
def favoritesStr : Str := String.toList "favorites"

/-- Translation of `filterSession(session, queryWords, excludeTracks, segment)`.
`fav` models `this.user.hasFavorite`.  The query test passes when there are no
query words or some query word occurs in the lowercased session name; the
track test reads `session.tracks.forEach` unguarded, so a session without a
`tracks` field throws a `TypeError`; the segment test passes unless the
segment is `'favorites'` and the session is not a favorite.  On success the
session's `hide` flag is set to the negated conjunction. -/
def filterSession (fav : Str → Bool) (queryWords : List Str)
    (excludeTracks : List Str) (segment : Str) (s : NSession) :
    Except JsError NSession :=
  let matchesQueryText :=
    if queryWords.isEmpty then true
    else queryWords.any fun w => occursIn w (lowerStr s.name)
  match s.tracks with
  | none => .error .typeError
  | some ts =>
    let matchesTracks := ts.any fun t => !(excludeTracks.contains t)
    let matchesSegment := if segment == favoritesStr then fav s.name else true
    .ok { s with hide := some (!(matchesQueryText && matchesTracks && matchesSegment)) }

/-- Translation of the inner `group.sessions.forEach` of `getTimeline`:
filter each session, and accumulate whether any session is visible
(`!session.hide`, which clears the group's `hide` flag) and how many are
visible (the `day.shownSessions` increments). -/
def filterSessions (fav : Str → Bool) (queryWords : List Str)
    (excludeTracks : List Str) (segment : Str) :
    List NSession → Except JsError (List NSession × Bool × Nat)
  | [] => .ok ([], false, 0)
  | s :: rest => do
    let s1 ← filterSession fav queryWords excludeTracks segment s
    let out ← filterSessions fav queryWords excludeTracks segment rest
    let vis := s1.hide == some false
    .ok (s1 :: out.1, vis || out.2.1, (if vis then 1 else 0) + out.2.2)

/-- Translation of the `day.groups.forEach` of `getTimeline`: each group's
`hide` flag starts `true` and is cleared when some session is visible; visible
session counts accumulate across groups into `day.shownSessions`. -/
def filterGroups (fav : Str → Bool) (queryWords : List Str)
    (excludeTracks : List Str) (segment : Str) :
    List NGroup → Except JsError (List NGroup × Nat)
  | [] => .ok ([], 0)
  | g :: rest => do
    let st ← filterSessions fav queryWords excludeTracks segment g.sessions
    let out ← filterGroups fav queryWords excludeTracks segment rest
    .ok ({ time := g.time, sessions := st.1, hide := some (!st.2.1) } :: out.1,
      st.2.2 + out.2)

/-- Translation of `getTimeline(dayIndex, queryText, excludeTracks, segment)`,
acting on an already-loaded document.  `data.schedule[dayIndex]` is
`undefined` when `dayIndex` is out of range, and the immediately following
`day.shownSessions = 0` then throws a `TypeError`.  On success the call
returns the mutated day, and the document holds that mutated day in place. -/
def getTimeline (fav : Str → Bool) (doc : NDoc) (dayIndex : Nat)
    (queryText : Str) (excludeTracks : List Str) (segment : Str) :
    Except JsError (NDoc × NDay) :=
  match doc.schedule[dayIndex]? with
  | none => .error .typeError
  | some day => do
    let queryWords := queryWordsOf queryText
    let st ← filterGroups fav queryWords excludeTracks segment day.groups
    let day1 : NDay := { date := day.date, groups := st.1, shownSessions := some st.2 }
    .ok ({ doc with schedule := doc.schedule.set dayIndex day1 }, day1)

/-- Lexicographic comparison of strings by character code: the model of both
`String.prototype.localeCompare` (default locale) and the default string
comparison of `Array.prototype.sort()`. -/
def cmpStr : Str → Str → Ordering
  | [], [] => .eq
  | [], _ :: _ => .lt
  | _ :: _, [] => .gt
  | a :: as, b :: bs =>
    match compare a.toNat b.toNat with
    | .eq => cmpStr as bs
    | o => o

/-- Translation of `name.split(' ').pop()`: the last space-separated token of
a speaker's name. -/
def lastName (name : Str) : Str := (splitCh ' ' name).getLastD []

/-- Comparator of `getSpeakers`: `aName.localeCompare(bName) <= 0` on last
names (as a boolean `le`, the reading of the `sort` comparator). -/
def speakerLe (a b : NSpeaker) : Bool :=
  cmpStr (lastName a.name) (lastName b.name) ≠ .gt

/-- Comparator of the default `Array.prototype.sort()` used by `getTracks`. -/
def strLe (a b : Str) : Bool := cmpStr a b ≠ .gt

/-- Translation of `getSpeakers()`, acting on an already-loaded document:
`data.speakers.sort(...)` sorts the cached array in place (ECMAScript sort is
stable) and returns that same array. -/
def getSpeakers (doc : NDoc) : NDoc × List NSpeaker :=
  let sorted := doc.speakers.mergeSort speakerLe
  ({ doc with speakers := sorted }, sorted)

/-- Translation of `getTracks()`: `data.tracks.sort()` sorts the cached track
array in place with the default string comparison and returns it. -/
def getTracks (doc : NDoc) : NDoc × List Str :=
  let sorted := doc.tracks.mergeSort strLe
  ({ doc with tracks := sorted }, sorted)

/-- Translation of `getMap()`: returns `data.map` unmodified. -/
def getMap (doc : NDoc) : NDoc × List MapPin := (doc, doc.map)

/-! Claim-level definitions: the three filter predicates as the specification
states them, the specification's own version of the query normalization, and
derived views of documents used to state the claims. -/

/-- Query predicate as the claim words it: true iff the word list is empty or
at least one word occurs as a substring of the lowercased session name. -/
def queryMatches (queryWords : List Str) (name : Str) : Bool :=
  queryWords.isEmpty || queryWords.any fun w => occursIn w (lowerStr name)

/-- Track predicate as the claim words it: true iff the session has at least
one track not present in `excludeTracks`. -/
def trackMatches (excludeTracks : List Str) (ts : List Str) : Bool :=
  ts.any fun t => !(excludeTracks.contains t)

/-- Segment predicate as the claim words it: true iff the segment is not
`'favorites'` or the favorites store reports the session name as a favorite. -/
def segmentMatches (fav : Str → Bool) (segment : Str) (name : Str) : Bool :=
  !(segment == favoritesStr) || fav name

/-- Splits a string at every character satisfying `p` (each separator
occurrence ends a token). -/
def splitPred (p : Char → Bool) : Str → List Str
  | [] => [[]]
  | c :: rest =>
    match splitPred p rest with
    | [] => [[c]]
    | w :: ws => if p c then [] :: w :: ws else (c :: w) :: ws

/-- Modelled from the spec: the query normalization as the specification and
claim C1 word it — lowercase, replace commas, periods and hyphens by spaces,
split on whitespace, drop empty tokens.  (The source instead splits on the
space character only; compare `queryWordsOf`.) -/
def queryWordsSpec (q : Str) : List Str :=
  (splitPred wsChar (normalizeQuery q)).filter fun w => !w.isEmpty

/-- All sessions of a raw schedule, flattened in document order (day, then
group, then session) — the order in which `processData` visits them. -/
def flatRawSessions (days : List Day) : List Session :=
  days.flatMap fun d => d.groups.flatMap fun g => g.sessions

/-- All sessions of a normalized document, flattened in document order; flat
session ids produced during normalization index into this list. -/
def flatSessions (doc : NDoc) : List NSession :=
  doc.schedule.flatMap fun d => d.groups.flatMap fun g => g.sessions

/-- All track names mentioned by sessions of a raw document, flattened in
document order (absent track fields contribute nothing). -/
def rawTrackList (raw : RawDoc) : List Str :=
  (flatRawSessions (raw.schedule.getD [])).flatMap fun s => s.tracks.getD []

/-- Keeps the first occurrence of every element, in order of first
appearance, and drops later duplicates. -/
def firstSeen : List Str → List Str
  | [] => []
  | t :: ts => t :: firstSeen (ts.filter fun u => u ≠ t)
termination_by l => l.length
decreasing_by exact Nat.lt_succ_of_le (List.length_filter_le _ _)

/-- Resolution of a session's speaker-name list against a name table: the
index of the first speaker with each name, skipping unmatched names. -/
def resolveIdxs (names : List Str) (sn : Option (List Str)) : List Nat :=
  (sn.getD []).filterMap fun n => findIdxO (fun m => m == n) names

/-- The normalized session that `processSession` produces for a raw session,
given the table of speaker names. -/
def nsOf (names : List Str) (s : Session) : NSession :=
  { name := s.name, description := s.description, speakerNames := s.speakerNames
    timeStart := s.timeStart, timeEnd := s.timeEnd, location := s.location
    tracks := s.tracks, speakers := resolveIdxs names s.speakerNames, hide := none }

/-- A session is visible after a filter pass when its `hide` flag was set to
`false`. -/
def vis (s : NSession) : Bool := s.hide == some false

/-- The session produced by a successful `filterSession` call: the input with
its `hide` flag set to the negated conjunction of the three predicates. -/
def applyHide (fav : Str → Bool) (qw excl : List Str) (seg : Str) (s : NSession) : NSession :=
  { s with hide := some (!(queryMatches qw s.name &&
      trackMatches excl (s.tracks.getD []) && segmentMatches fav seg s.name)) }

/-- Erases the `hide` annotation of a session, leaving the structural data. -/
def scrubSession (s : NSession) : NSession := { s with hide := none }

/-- Erases the filter annotations of a group. -/
def scrubGroup (g : NGroup) : NGroup :=
  { g with sessions := g.sessions.map scrubSession, hide := none }

/-- Erases the filter annotations of a day. -/
def scrubDay (d : NDay) : NDay :=
  { d with groups := d.groups.map scrubGroup, shownSessions := none }

/-- Convenience: a Lean string literal as a modelled JavaScript string. -/
def str (s : String) : Str := s.toList

/-- A favorites store with no favorites. -/
def favNone : Str → Bool := fun _ => false

/-- The `'all'` segment value. -/
def allStr : Str := str "all"

/-- Raw speaker with only a name (other fields empty). -/
def mkSpeaker (n : Str) : Speaker :=
  { name := n, profilePic := [], twitter := [], about := [], location := []
    email := [], phone := [] }

/-- Raw session with a name, speaker names and tracks (other fields empty). -/
def mkSession (n : Str) (sn : Option (List Str)) (tr : Option (List Str)) : Session :=
  { name := n, description := [], speakerNames := sn, timeStart := []
    timeEnd := [], location := [], tracks := tr }

/-- Sample raw document: the scenario of the specification (one day, group A
with session "Intro to X", group B with session "Deep Dive Y"). -/
def sampleRaw : RawDoc :=
  { schedule := some
      [{ date := str "2047-05-17"
         groups :=
          [{ time := str "9:00 am"
             sessions := [mkSession (str "Intro to X") (some [str "Alice"]) (some [str "design"])] },
           { time := str "10:00 am"
             sessions := [mkSession (str "Deep Dive Y") (some []) (some [str "dev"])] }] }]
    speakers := [mkSpeaker (str "Alice")]
    map := [] }

/-- The sample raw document, normalized. -/
def sampleNDoc : NDoc :=
  match processData sampleRaw with
  | .ok d => d
  | .error _ => default

/-- Normalized document with a single session named "x" on track "t", used to
exercise the query normalization at concrete inputs. -/
def docC1 : NDoc :=
  { schedule :=
      [{ date := []
         groups :=
          [{ time := []
             sessions :=
              [{ name := str "x", description := [], speakerNames := none
                 timeStart := [], timeEnd := [], location := []
                 tracks := some [str "t"], speakers := [], hide := none }]
             hide := none }]
         shownSessions := none }]
    speakers := [], tracks := [], map := [] }

/-- Extracts the `hide` flag of the first session of the first group of the
day returned by a `getTimeline` call. -/
def firstHide (r : Except JsError (NDoc × NDay)) : Option Bool :=
  match r with
  | .error _ => none
  | .ok p =>
    match p.2.groups with
    | [] => none
    | g :: _ =>
      match g.sessions with
      | [] => none
      | s :: _ => s.hide

/-- Normalized speaker with only a name (no linked sessions). -/
def mkNSpk (n : Str) : NSpeaker :=
  { name := n, profilePic := [], twitter := [], about := [], location := []
    email := [], phone := [], sessions := [] }

/-- Normalized document with two speakers sharing the last name "Smith", used
to exercise sort stability at a concrete input. -/
def docTie : NDoc :=
  { schedule := []
    speakers := [mkNSpk (str "Ann Smith"), mkNSpk (str "Bob Smith")]
    tracks := [], map := [] }

/-- Modelled from the spec: the sort key of `getSpeakers` as the claim words
it — the last whitespace-separated token of the speaker's name.  (The source
instead takes the last space-separated token, `split(' ').pop()`; compare
`lastName`.) -/
def lastNameWs (name : Str) : Str := (splitPred wsChar name).getLastD []

/-- Modelled from the spec: the speaker comparator as the claim words it,
ascending by the last whitespace-separated token of the name. -/
def specSpeakerLe (a b : NSpeaker) : Bool :=
  cmpStr (lastNameWs a.name) (lastNameWs b.name) ≠ .gt

/-- Normalized document whose speakers order the two sort keys differently:
the last space-separated token of "Ann Smith<TAB>A" is "Smith<TAB>A" (after
"Apple"), while its last whitespace-separated token is "A" (before "Apple"). -/
def doc8 : NDoc :=
  { schedule := []
    speakers := [mkNSpk (str "Ann Smith\tA"), mkNSpk (str "Bob Apple")]
    tracks := [], map := [] }

/-- Normalized document whose speakers are not in last-name order and whose
tracks are not sorted, used to exhibit the in-place mutation of the accessors. -/
def doc9 : NDoc :=
  { schedule := []
    speakers :=
      [{ name := str "Zed Young", profilePic := [], twitter := [], about := []
         location := [], email := [], phone := [], sessions := [] },
       { name := str "Ann Black", profilePic := [], twitter := [], about := []
         location := [], email := [], phone := [], sessions := [] }]
    tracks := [str "dev", str "design"]
    map := [] }

/-- Raw document containing a session that has no `tracks` field. -/
def rawC10 : RawDoc :=
  { schedule := some
      [{ date := []
         groups := [{ time := [], sessions := [mkSession (str "No Tracks") none none] }] }]
    speakers := []
    map := [] }

/-- The normalization of `rawC10`. -/
def docC10 : NDoc :=
  match processData rawC10 with
  | .ok d => d
  | .error _ => default

/-- The first day of `docC10`. -/
def dayC10 : NDay :=
  match docC10.schedule with
  | d :: _ => d
  | [] => default

/-- The result of the sample timeline query `getTimeline(0, "intro", [], "all")`
on the normalized sample document. -/
def tl1 : Except JsError (NDoc × NDay) :=
  getTimeline favNone sampleNDoc 0 (str "intro") [] allStr

/-- The document component of the sample timeline query. -/
def tl1doc : NDoc :=
  match tl1 with
  | .ok p => p.1
  | .error _ => default

/-- The day component of the sample timeline query. -/
def tl1day : NDay :=
  match tl1 with
  | .ok p => p.2
  | .error _ => default

/-- A malformed raw document: the required top-level `schedule` field is
missing. -/
def rawNoSchedule : RawDoc := { schedule := none, speakers := [], map := [] }

end ConfData

deriving instance DecidableEq for Except

namespace ConfData

/-! Lemmas about the small list helpers. -/

theorem updateAt_getD (f : α → α) (d : α) :
    ∀ (l : List α) (i j : Nat),
      (updateAt i f l).getD j d =
        if j = i ∧ i < l.length then f (l.getD i d) else l.getD j d
  | [], i, j => by simp [updateAt]
  | a :: l, 0, 0 => by simp [updateAt]
  | a :: l, 0, j + 1 => by simp [updateAt]
  | a :: l, i + 1, 0 => by simp [updateAt]
  | a :: l, i + 1, j + 1 => by
    have h : (j + 1 = i + 1 ∧ i + 1 < l.length + 1) ↔ (j = i ∧ i < l.length) := by omega
    simp only [updateAt, List.getD_cons_succ, updateAt_getD f d l i j, List.length_cons, h]

theorem updateAt_map (g : α → β) (f : α → α) (h : ∀ a, g (f a) = g a) :
    ∀ (l : List α) (i : Nat), (updateAt i f l).map g = l.map g
  | [], _ => by simp [updateAt]
  | a :: l, 0 => by simp [updateAt, h]
  | a :: l, i + 1 => by simp [updateAt, updateAt_map g f h l i]

theorem findIdxO_lt (p : α → Bool) :
    ∀ {l : List α} {i : Nat}, findIdxO p l = some i → i < l.length := by
  intro l
  induction l with
  | nil => intro i h; simp [findIdxO] at h
  | cons a l ih =>
    intro i h
    simp only [findIdxO] at h
    split at h
    · cases h; simp
    · obtain ⟨j, hj, hji⟩ := Option.map_eq_some'.mp h
      have := ih hj
      simp only [List.length_cons]
      omega

theorem findIdxO_getD (p : α → Bool) (d : α) :
    ∀ {l : List α} {i : Nat}, findIdxO p l = some i → p (l.getD i d) = true := by
  intro l
  induction l with
  | nil => intro i h; simp [findIdxO] at h
  | cons a l ih =>
    intro i h
    simp only [findIdxO] at h
    split at h
    · rename_i hp
      cases h
      simpa using hp
    · obtain ⟨j, hj, hji⟩ := Option.map_eq_some'.mp h
      subst hji
      simpa using ih hj

theorem findIdxO_map (q : β → Bool) (g : α → β) :
    ∀ (l : List α), findIdxO q (l.map g) = findIdxO (fun a => q (g a)) l
  | [] => rfl
  | a :: l => by simp [findIdxO, findIdxO_map q g l]

theorem findIdxO_eq_none (p : α → Bool) :
    ∀ {l : List α}, findIdxO p l = none ↔ ∀ a ∈ l, p a = false := by
  intro l
  induction l with
  | nil => simp [findIdxO]
  | cons a l ih =>
    by_cases hp : p a
    · simp [findIdxO, hp]
    · simp only [findIdxO, hp, if_neg, Bool.false_eq_true, ite_false,
        Option.map_eq_none', ih, List.mem_cons]
      constructor
      · intro hall b hb
        rcases hb with rfl | hb
        · simpa using hp
        · exact hall b hb
      · intro hall b hb
        exact hall b (Or.inr hb)

/-! Lemmas about the speaker-linking loop. -/

theorem link_map_name (sid : Nat) :
    ∀ (ns : List Str) (sps : List NSpeaker),
      ((linkSpeakers sid sps ns).1).map NSpeaker.name = sps.map NSpeaker.name
  | [], sps => rfl
  | n :: rest, sps => by
    cases hfind : findIdxO (fun sp => sp.name == n) sps with
    | none => simpa [linkSpeakers, hfind] using link_map_name sid rest sps
    | some i =>
      simp only [linkSpeakers, hfind]
      rw [link_map_name sid rest]
      exact updateAt_map NSpeaker.name
        (fun sp => { sp with sessions := sp.sessions ++ [sid] }) (fun a => rfl) sps i

theorem link_length (sid : Nat) (ns : List Str) (sps : List NSpeaker) :
    ((linkSpeakers sid sps ns).1).length = sps.length := by
  have h := congrArg List.length (link_map_name sid ns sps)
  simpa using h

theorem link_snd (sid : Nat) :
    ∀ (ns : List Str) (sps : List NSpeaker),
      (linkSpeakers sid sps ns).2 =
        ns.filterMap fun n => findIdxO (fun m => m == n) (sps.map NSpeaker.name)
  | [], sps => rfl
  | n :: rest, sps => by
    have hmap : findIdxO (fun m => m == n) (sps.map NSpeaker.name) =
        findIdxO (fun sp => sp.name == n) sps := findIdxO_map _ _ sps
    cases hfind : findIdxO (fun sp => sp.name == n) sps with
    | none =>
      simp only [linkSpeakers, hfind, List.filterMap_cons, hmap]
      exact link_snd sid rest sps
    | some i =>
      simp only [linkSpeakers, hfind, List.filterMap_cons, hmap]
      rw [link_snd sid rest]
      have hnames : (updateAt i (fun sp => { sp with sessions := sp.sessions ++ [sid] }) sps).map
          NSpeaker.name = sps.map NSpeaker.name :=
        updateAt_map NSpeaker.name
          (fun sp => { sp with sessions := sp.sessions ++ [sid] }) (fun a => rfl) sps i
      rw [hnames]

theorem link_sessions (sid : Nat) :
    ∀ (ns : List Str) (sps : List NSpeaker) (i : Nat),
      (((linkSpeakers sid sps ns).1).getD i default).sessions =
        ((sps.getD i default).sessions) ++
          List.replicate (((linkSpeakers sid sps ns).2).count i) sid
  | [], sps, i => by simp [linkSpeakers]
  | n :: rest, sps, i => by
    cases hfind : findIdxO (fun sp => sp.name == n) sps with
    | none =>
      simp only [linkSpeakers, hfind]
      exact link_sessions sid rest sps i
    | some i0 =>
      have hi0 : i0 < sps.length := findIdxO_lt _ hfind
      simp only [linkSpeakers, hfind]
      rw [link_sessions sid rest, List.count_cons, updateAt_getD]
      by_cases hii : i = i0
      · subst hii
        simp only [hi0, and_true, if_pos rfl, beq_self_eq_true, if_pos]
        rw [Nat.add_comm (List.count _ _) 1, List.replicate_add]
        simp
      · have : ¬(i = i0 ∧ i0 < sps.length) := fun h => hii h.1
        rw [if_neg this]
        have hbeq : (i0 == i) = false := by
          simpa using Ne.symm hii
        simp [hbeq]

/-! Lemmas about `processSession` and the session traversal. -/

theorem ps_nsession (sid : Nat) (sps : List NSpeaker) (tr : List Str) (s : Session) :
    (processSession sid sps tr s).2.2 = nsOf (sps.map NSpeaker.name) s := by
  cases hn : s.speakerNames with
  | none => simp [processSession, hn, nsOf, resolveIdxs]
  | some names => simp [processSession, hn, nsOf, resolveIdxs, link_snd]

theorem ps_map_name (sid : Nat) (sps : List NSpeaker) (tr : List Str) (s : Session) :
    ((processSession sid sps tr s).1).map NSpeaker.name = sps.map NSpeaker.name := by
  cases hn : s.speakerNames with
  | none => simp [processSession, hn]
  | some names => simp [processSession, hn, link_map_name]

theorem ps_tracks (sid : Nat) (sps : List NSpeaker) (tr : List Str) (s : Session) :
    (processSession sid sps tr s).2.1 = addTracks tr (s.tracks.getD []) := by
  cases ht : s.tracks with
  | none => simp [processSession, ht, addTracks]
  | some ts => simp [processSession, ht]

theorem ps_sessions (sid : Nat) (sps : List NSpeaker) (tr : List Str) (s : Session) (i : Nat) :
    (((processSession sid sps tr s).1).getD i default).sessions =
      ((sps.getD i default).sessions) ++
        List.replicate ((((processSession sid sps tr s).2.2).speakers).count i) sid := by
  cases hn : s.speakerNames with
  | none => simp [processSession, hn]
  | some names =>
    have h := link_sessions sid names sps i
    simp only [processSession, hn]
    simpa using h

theorem pss_map_name :
    ∀ (l : List Session) (sps : List NSpeaker) (tr : List Str) (sid : Nat),
      ((processSessions sps tr sid l).1).map NSpeaker.name = sps.map NSpeaker.name
  | [], sps, tr, sid => rfl
  | s :: l, sps, tr, sid => by
    simp only [processSessions]
    rw [pss_map_name l, ps_map_name]

theorem pss_out :
    ∀ (l : List Session) (sps : List NSpeaker) (tr : List Str) (sid : Nat),
      (processSessions sps tr sid l).2.2.2 = l.map (nsOf (sps.map NSpeaker.name))
  | [], sps, tr, sid => rfl
  | s :: l, sps, tr, sid => by
    simp only [processSessions, List.map_cons]
    rw [pss_out l, ps_nsession, ps_map_name]

theorem addTracks_append (tr : List Str) (a b : List Str) :
    addTracks tr (a ++ b) = addTracks (addTracks tr a) b := by
  simp [addTracks]

theorem pss_tracks :
    ∀ (l : List Session) (sps : List NSpeaker) (tr : List Str) (sid : Nat),
      (processSessions sps tr sid l).2.1 =
        addTracks tr (l.flatMap fun s => s.tracks.getD [])
  | [], sps, tr, sid => rfl
  | s :: l, sps, tr, sid => by
    simp only [processSessions, List.flatMap_cons]
    rw [pss_tracks l, ps_tracks, addTracks_append]

theorem pss_sid :
    ∀ (l : List Session) (sps : List NSpeaker) (tr : List Str) (sid : Nat),
      (processSessions sps tr sid l).2.2.1 = sid + l.length
  | [], sps, tr, sid => by simp [processSessions]
  | s :: l, sps, tr, sid => by
    simp only [processSessions]
    rw [pss_sid l]
    simp only [List.length_cons]
    omega

theorem pss_count :
    ∀ (l : List Session) (sps : List NSpeaker) (tr : List Str) (sid : Nat) (i j : Nat),
      ((((processSessions sps tr sid l).1).getD i default).sessions).count j =
        (((sps.getD i default).sessions).count j) +
          (if sid ≤ j ∧ j < sid + l.length
           then ((((processSessions sps tr sid l).2.2.2).getD (j - sid) default).speakers).count i
           else 0)
  | [], sps, tr, sid, i, j => by
    simp only [processSessions, List.length_nil, Nat.add_zero]
    have : ¬(sid ≤ j ∧ j < sid) := by omega
    simp [this]
  | s :: l, sps, tr, sid, i, j => by
    simp only [processSessions, List.length_cons]
    rw [pss_count l, ps_sessions, List.count_append, List.count_replicate]
    by_cases h1 : j = sid
    · subst h1
      have hn1 : ¬(j + 1 ≤ j) := by omega
      have hc : j ≤ j ∧ j < j + (l.length + 1) := by omega
      simp [hn1, hc]
    · have hbeq : (sid == j) = false := by
        simpa using fun h => h1 h.symm
      by_cases h2 : sid + 1 ≤ j ∧ j < sid + 1 + l.length
      · have hc : sid ≤ j ∧ j < sid + (l.length + 1) := by omega
        have hsub : j - sid = (j - (sid + 1)) + 1 := by omega
        simp only [hbeq, Bool.false_eq_true, ite_false, if_pos h2, if_pos hc, hsub,
          List.getD_cons_succ]
        omega
      · have hc : ¬(sid ≤ j ∧ j < sid + (l.length + 1)) := by omega
        simp [hbeq, h2, hc]

theorem pss_append :
    ∀ (l1 l2 : List Session) (sps : List NSpeaker) (tr : List Str) (sid : Nat),
      processSessions sps tr sid (l1 ++ l2) =
        ((processSessions (processSessions sps tr sid l1).1
            (processSessions sps tr sid l1).2.1 (processSessions sps tr sid l1).2.2.1 l2).1,
         (processSessions (processSessions sps tr sid l1).1
            (processSessions sps tr sid l1).2.1 (processSessions sps tr sid l1).2.2.1 l2).2.1,
         (processSessions (processSessions sps tr sid l1).1
            (processSessions sps tr sid l1).2.1 (processSessions sps tr sid l1).2.2.1 l2).2.2.1,
         (processSessions sps tr sid l1).2.2.2 ++
           (processSessions (processSessions sps tr sid l1).1
              (processSessions sps tr sid l1).2.1 (processSessions sps tr sid l1).2.2.1 l2).2.2.2)
  | [], l2, sps, tr, sid => by simp [processSessions]
  | s :: l1, l2, sps, tr, sid => by
    simp only [List.cons_append, List.append_eq, processSessions]
    rw [pss_append l1 l2]

theorem pg_flat :
    ∀ (gs : List Group) (sps : List NSpeaker) (tr : List Str) (sid : Nat),
      ((processGroups sps tr sid gs).1, (processGroups sps tr sid gs).2.1,
       (processGroups sps tr sid gs).2.2.1,
       ((processGroups sps tr sid gs).2.2.2).flatMap fun g => g.sessions) =
        processSessions sps tr sid (gs.flatMap fun g => g.sessions)
  | [], sps, tr, sid => by simp [processGroups, processSessions]
  | g :: gs, sps, tr, sid => by
    have ih := pg_flat gs ((processSessions sps tr sid g.sessions).1)
      ((processSessions sps tr sid g.sessions).2.1)
      ((processSessions sps tr sid g.sessions).2.2.1)
    have h1 := congrArg Prod.fst ih
    have h2 := congrArg (fun p => p.2.1) ih
    have h3 := congrArg (fun p => p.2.2.1) ih
    have h4 := congrArg (fun p => p.2.2.2) ih
    simp only at h1 h2 h3 h4
    simp only [processGroups, List.flatMap_cons, pss_append g.sessions]
    rw [Prod.mk.injEq, Prod.mk.injEq, Prod.mk.injEq]
    exact ⟨h1, h2, h3, by rw [← h4]⟩

theorem pd_flat :
    ∀ (days : List Day) (sps : List NSpeaker) (tr : List Str) (sid : Nat),
      ((processDays sps tr sid days).1, (processDays sps tr sid days).2.1,
       (processDays sps tr sid days).2.2.1,
       ((processDays sps tr sid days).2.2.2).flatMap fun d =>
         d.groups.flatMap fun g => g.sessions) =
        processSessions sps tr sid (flatRawSessions days)
  | [], sps, tr, sid => by simp [processDays, processSessions, flatRawSessions]
  | d :: days, sps, tr, sid => by
    have hg := pg_flat d.groups sps tr sid
    have hg1 := congrArg Prod.fst hg
    have hg2 := congrArg (fun p => p.2.1) hg
    have hg3 := congrArg (fun p => p.2.2.1) hg
    have hg4 := congrArg (fun p => p.2.2.2) hg
    simp only at hg1 hg2 hg3 hg4
    have ih := pd_flat days ((processGroups sps tr sid d.groups).1)
      ((processGroups sps tr sid d.groups).2.1)
      ((processGroups sps tr sid d.groups).2.2.1)
    have h1 := congrArg Prod.fst ih
    have h2 := congrArg (fun p => p.2.1) ih
    have h3 := congrArg (fun p => p.2.2.1) ih
    have h4 := congrArg (fun p => p.2.2.2) ih
    simp only [flatRawSessions] at h1 h2 h3 h4
    rw [hg1, hg2, hg3] at h1 h2 h3 h4
    simp only [processDays, flatRawSessions, List.flatMap_cons,
      pss_append (d.groups.flatMap fun g => g.sessions)]
    rw [Prod.mk.injEq, Prod.mk.injEq, Prod.mk.injEq]
    refine ⟨?_, ?_, ?_, ?_⟩
    · rw [hg1, hg2, hg3]; exact h1
    · rw [hg1, hg2, hg3]; exact h2
    · rw [hg1, hg2, hg3]; exact h3
    · rw [hg4, hg1, hg2, hg3, h4]

/-! Lemmas about `processData` and the derived cross references. -/

theorem processData_some {raw : RawDoc} {days : List Day} (h : raw.schedule = some days) :
    processData raw = .ok
      { schedule := (processDays (raw.speakers.map initNSpeaker) [] 0 days).2.2.2
        speakers := (processDays (raw.speakers.map initNSpeaker) [] 0 days).1
        tracks := (processDays (raw.speakers.map initNSpeaker) [] 0 days).2.1
        map := raw.map } := by
  simp [processData, h]

theorem sps0_sessions (sps : List Speaker) :
    ∀ (i : Nat), (((sps.map initNSpeaker).getD i default).sessions) = [] := by
  intro i
  induction sps generalizing i with
  | nil => rfl
  | cons sp sps ih =>
    cases i with
    | zero => rfl
    | succ i => simpa using ih i

theorem resolve_names (names : List Str) :
    ∀ (sn : List Str),
      (sn.filterMap fun n => findIdxO (fun m => m == n) names).map
          (fun i => names.getD i []) =
        sn.filter fun n => names.contains n
  | [] => rfl
  | n :: sn => by
    cases hf : findIdxO (fun m => m == n) names with
    | some i =>
      have hi : i < names.length := findIdxO_lt _ hf
      have hbeq : (names.getD i [] == n) = true := findIdxO_getD _ [] hf
      have hval : names.getD i [] = n := eq_of_beq hbeq
      have hmem : n ∈ names := by
        rw [← hval]
        rw [List.getD_eq_getElem?_getD, List.getElem?_eq_getElem hi]
        exact List.getElem_mem hi
      have hcont : names.contains n = true :=
        List.contains_iff_exists_mem_beq.mpr ⟨n, hmem, by simp⟩
      simp only [List.filterMap_cons, hf, List.map_cons, List.filter_cons, hcont, if_pos]
      rw [resolve_names names sn, hval]
    | none =>
      have hall : ∀ a ∈ names, (a == n) = false := (findIdxO_eq_none _).mp hf
      have hcont : names.contains n = false := by
        cases hc : names.contains n with
        | false => rfl
        | true =>
          obtain ⟨a, ha, hab⟩ := List.contains_iff_exists_mem_beq.mp hc
          have := hall a ha
          rw [eq_of_beq hab] at this
          simp at this
      simp only [List.filterMap_cons, hf, List.filter_cons, hcont]
      exact resolve_names names sn

theorem resolve_lt (names : List Str) (sn : Option (List Str)) :
    ∀ i ∈ resolveIdxs names sn, i < names.length := by
  intro i hi
  obtain ⟨n, hn, hfn⟩ := List.mem_filterMap.mp hi
  exact findIdxO_lt _ hfn

/-! Lemmas about the track collection and `firstSeen`. -/

theorem firstSeen_mem : ∀ (l : List Str) (a : Str), a ∈ firstSeen l ↔ a ∈ l := by
  intro l
  induction l using firstSeen.induct with
  | case1 => simp [firstSeen]
  | case2 t ts ih =>
    intro a
    rw [firstSeen]
    by_cases hat : a = t
    · subst hat
      simp
    · simp only [List.mem_cons, hat, false_or, ih, List.mem_filter]
      simp [hat]

theorem firstSeen_nodup : ∀ (l : List Str), (firstSeen l).Nodup := by
  intro l
  induction l using firstSeen.induct with
  | case1 => simp [firstSeen]
  | case2 t ts ih =>
    rw [firstSeen]
    refine List.nodup_cons.mpr ⟨?_, ih⟩
    rw [firstSeen_mem]
    intro hmem
    have := (List.mem_filter.mp hmem).2
    simp at this

theorem addTracks_eq :
    ∀ (l : List Str) (acc : List Str),
      addTracks acc l = acc ++ firstSeen (l.filter fun t => !decide (t ∈ acc))
  | [], acc => by simp [addTracks, firstSeen]
  | t :: ts, acc => by
    by_cases h : t ∈ acc
    · have hstep : addTracks acc (t :: ts) = addTracks acc ts := by
        simp [addTracks, h]
      rw [hstep, addTracks_eq ts acc]
      simp [List.filter_cons, h]
    · have hstep : addTracks acc (t :: ts) = addTracks (acc ++ [t]) ts := by
        simp [addTracks, h]
      have hfil : ts.filter (fun u => !decide (u ∈ acc ++ [t])) =
          ts.filter fun u => decide (u ≠ t) && !decide (u ∈ acc) := by
        apply List.filter_congr
        intro u _
        by_cases hut : u = t
        · subst hut
          simp
        · simp [List.mem_append, hut]
      rw [hstep, addTracks_eq ts (acc ++ [t]), hfil]
      have hpt : (!decide (t ∈ acc)) = true := by simp [h]
      simp only [List.filter_cons, hpt, if_pos]
      rw [firstSeen, List.filter_filter, List.append_assoc, List.singleton_append]

theorem addTracks_nil_eq (l : List Str) : addTracks [] l = firstSeen l := by
  rw [addTracks_eq]
  simp

theorem processData_ok_elim {raw : RawDoc} {doc : NDoc} (h : processData raw = .ok doc) :
    ∃ days, raw.schedule = some days ∧
      doc = { schedule := (processDays (raw.speakers.map initNSpeaker) [] 0 days).2.2.2
              speakers := (processDays (raw.speakers.map initNSpeaker) [] 0 days).1
              tracks := (processDays (raw.speakers.map initNSpeaker) [] 0 days).2.1
              map := raw.map } := by
  cases hs : raw.schedule with
  | none => simp [processData, hs] at h
  | some days =>
    refine ⟨days, rfl, ?_⟩
    rw [processData_some hs] at h
    exact (Except.ok.inj h).symm

/-- Claim C3: after normalization, every session's `speakers` list holds
exactly the speakers whose name matches an entry of the session's
`speakerNames`, resolved by first exact name match, in the order of
`speakerNames` with unmatched names silently skipped; and each speaker's
`sessions` list holds exactly the sessions that listed the speaker (stated as
an equality of occurrence counts between the two link directions, so the
relation is symmetric). -/
theorem c3_speaker_session_links (raw : RawDoc) (doc : NDoc)
    (h : processData raw = .ok doc) :
    (∀ ns ∈ flatSessions doc,
        ns.speakers = resolveIdxs (doc.speakers.map NSpeaker.name) ns.speakerNames ∧
        ns.speakers.map (fun i => (doc.speakers.map NSpeaker.name).getD i []) =
          (ns.speakerNames.getD []).filter
            (fun n => (doc.speakers.map NSpeaker.name).contains n) ∧
        ∀ i ∈ ns.speakers, i < doc.speakers.length) ∧
    (∀ i j : Nat,
        ((doc.speakers.getD i default).sessions).count j =
          (((flatSessions doc).getD j default).speakers).count i) := by
  obtain ⟨days, hs, hdoc⟩ := processData_ok_elim h
  subst hdoc
  have hp := pd_flat days (raw.speakers.map initNSpeaker) [] 0
  have hp1 := congrArg Prod.fst hp
  have hp4 := congrArg (fun p => p.2.2.2) hp
  simp only at hp1 hp4
  have hspk : ({ schedule := (processDays (raw.speakers.map initNSpeaker) [] 0 days).2.2.2
                 speakers := (processDays (raw.speakers.map initNSpeaker) [] 0 days).1
                 tracks := (processDays (raw.speakers.map initNSpeaker) [] 0 days).2.1
                 map := raw.map } : NDoc).speakers =
      (processSessions (raw.speakers.map initNSpeaker) [] 0 (flatRawSessions days)).1 := hp1
  have hflat : flatSessions
      { schedule := (processDays (raw.speakers.map initNSpeaker) [] 0 days).2.2.2
        speakers := (processDays (raw.speakers.map initNSpeaker) [] 0 days).1
        tracks := (processDays (raw.speakers.map initNSpeaker) [] 0 days).2.1
        map := raw.map } =
      (processSessions (raw.speakers.map initNSpeaker) [] 0 (flatRawSessions days)).2.2.2 := by
    simp only [flatSessions]
    exact hp4
  have hnames : ((processSessions (raw.speakers.map initNSpeaker) [] 0
      (flatRawSessions days)).1).map NSpeaker.name =
      (raw.speakers.map initNSpeaker).map NSpeaker.name := pss_map_name _ _ _ _
  have hout := pss_out (flatRawSessions days) (raw.speakers.map initNSpeaker) [] 0
  have hlen : ((processSessions (raw.speakers.map initNSpeaker) [] 0
      (flatRawSessions days)).1).length = (raw.speakers.map initNSpeaker).length := by
    have := congrArg List.length hnames
    simpa using this
  constructor
  · intro ns hns
    rw [hflat, hout] at hns
    obtain ⟨s, hsmem, rfl⟩ := List.mem_map.mp hns
    rw [hspk, hnames]
    refine ⟨rfl, ?_, ?_⟩
    · exact resolve_names _ _
    · intro i hi
      have := resolve_lt ((raw.speakers.map initNSpeaker).map NSpeaker.name)
        s.speakerNames i (by simpa [nsOf] using hi)
      rw [hlen]
      simpa using this
  · intro i j
    rw [hspk, hflat]
    rw [pss_count (flatRawSessions days) (raw.speakers.map initNSpeaker) [] 0 i j]
    rw [sps0_sessions raw.speakers i]
    simp only [List.count_nil, Nat.zero_add, Nat.zero_le, true_and, Nat.sub_zero]
    by_cases hj : j < (flatRawSessions days).length
    · simp [hj]
    · have hlen2 : ((processSessions (raw.speakers.map initNSpeaker) [] 0
          (flatRawSessions days)).2.2.2).length = (flatRawSessions days).length := by
        rw [hout]
        simp
      have hged : ((processSessions (raw.speakers.map initNSpeaker) [] 0
          (flatRawSessions days)).2.2.2).getD j default = default := by
        rw [List.getD_eq_getElem?_getD, List.getElem?_eq_none]
        · rfl
        · omega
      rw [hged]
      have hd : (default : NSession).speakers = [] := rfl
      simp [hj, hd]

/-- Claim C7: after normalization the derived track list contains every track
name appearing in any session exactly once (no duplicates however many
sessions reference it), in first-seen document order prior to any explicit
sort. -/
theorem c7_track_set (raw : RawDoc) (doc : NDoc) (h : processData raw = .ok doc) :
    doc.tracks = firstSeen (rawTrackList raw) ∧ doc.tracks.Nodup ∧
      ∀ t, t ∈ doc.tracks ↔ t ∈ rawTrackList raw := by
  obtain ⟨days, hs, hdoc⟩ := processData_ok_elim h
  subst hdoc
  have hp := pd_flat days (raw.speakers.map initNSpeaker) [] 0
  have hp2 := congrArg (fun p => p.2.1) hp
  simp only at hp2
  have htr : ({ schedule := (processDays (raw.speakers.map initNSpeaker) [] 0 days).2.2.2
                speakers := (processDays (raw.speakers.map initNSpeaker) [] 0 days).1
                tracks := (processDays (raw.speakers.map initNSpeaker) [] 0 days).2.1
                map := raw.map } : NDoc).tracks =
      addTracks [] ((flatRawSessions days).flatMap fun s => s.tracks.getD []) := by
    rw [hp2]
    exact pss_tracks _ _ _ _
  have hraw : rawTrackList raw = (flatRawSessions days).flatMap fun s => s.tracks.getD [] := by
    simp [rawTrackList, hs]
  rw [htr, hraw, addTracks_nil_eq]
  exact ⟨rfl, firstSeen_nodup _, fun t => firstSeen_mem _ t⟩

/-! Lemmas about the filter pass. -/

theorem filterSession_none {fav qw excl seg} {s : NSession} (h : s.tracks = none) :
    filterSession fav qw excl seg s = .error .typeError := by
  simp [filterSession, h]

theorem filterSession_some {fav qw excl seg} {s : NSession} {ts : List Str}
    (h : s.tracks = some ts) :
    filterSession fav qw excl seg s = .ok (applyHide fav qw excl seg s) := by
  have hq : (if qw.isEmpty then true
      else qw.any fun w => occursIn w (lowerStr s.name)) = queryMatches qw s.name := by
    cases hqe : qw.isEmpty <;> simp [queryMatches, hqe]
  have hseg : (if seg == favoritesStr then fav s.name else true) =
      segmentMatches fav seg s.name := by
    cases hh : seg == favoritesStr <;> simp [segmentMatches, hh]
  simp only [filterSession, h, applyHide, trackMatches]
  rw [hq, hseg]
  simp [h]

theorem filterSessions_ok {fav : Str → Bool} {qw excl : List Str} {seg : Str} :
    ∀ {l : List NSession} {out},
      filterSessions fav qw excl seg l = .ok out →
      out.1 = l.map (applyHide fav qw excl seg) ∧
      (∀ s ∈ l, s.tracks ≠ none) ∧
      out.2.1 = (l.map (applyHide fav qw excl seg)).any vis ∧
      out.2.2 = (l.map (applyHide fav qw excl seg)).countP vis := by
  intro l
  induction l with
  | nil =>
    intro out h
    simp only [filterSessions] at h
    cases h
    simp
  | cons s l ih =>
    intro out h
    cases ht : s.tracks with
    | none =>
      rw [filterSessions, filterSession_none ht] at h
      simp [Bind.bind, Except.bind] at h
    | some ts =>
      rw [filterSessions, filterSession_some ht] at h
      cases hrest : filterSessions fav qw excl seg l with
      | error e =>
        rw [hrest] at h
        simp [Bind.bind, Except.bind] at h
      | ok out' =>
        rw [hrest] at h
        simp only [Bind.bind, Except.bind, Except.ok.injEq] at h
        obtain ⟨h1, h2, h3⟩ := ih hrest
        subst h
        refine ⟨by simp [h1], ?_, ?_, ?_⟩
        · intro s' hs'
          rcases List.mem_cons.mp hs' with rfl | hs'
          · simp [ht]
          · exact h2 s' hs'
        · simp only [List.map_cons, List.any_cons]
          rw [h3.1]
          rfl
        · simp only [List.map_cons, List.countP_cons]
          rw [h3.2]
          have : vis (applyHide fav qw excl seg s) =
              ((applyHide fav qw excl seg s).hide == some false) := rfl
          rw [← this]
          omega

theorem filterSessions_err {fav : Str → Bool} {qw excl : List Str} {seg : Str} :
    ∀ {l : List NSession}, (∃ s ∈ l, s.tracks = none) →
      filterSessions fav qw excl seg l = .error .typeError := by
  intro l
  induction l with
  | nil => intro h; simp at h
  | cons s l ih =>
    intro h
    cases ht : s.tracks with
    | none =>
      rw [filterSessions, filterSession_none ht]
      rfl
    | some ts =>
      have hl : ∃ s ∈ l, s.tracks = none := by
        obtain ⟨s', hs', hn⟩ := h
        rcases List.mem_cons.mp hs' with rfl | hs'
        · rw [ht] at hn; cases hn
        · exact ⟨s', hs', hn⟩
      rw [filterSessions, filterSession_some ht, ih hl]
      rfl

/-- The group produced by a successful `filterGroups` call for one input
group. -/
theorem filterGroups_ok {fav : Str → Bool} {qw excl : List Str} {seg : Str} :
    ∀ {gs : List NGroup} {out},
      filterGroups fav qw excl seg gs = .ok out →
      out.1 = gs.map (fun g =>
        { time := g.time, sessions := g.sessions.map (applyHide fav qw excl seg)
          hide := some (!((g.sessions.map (applyHide fav qw excl seg)).any vis)) }) ∧
      out.2 = (out.1.flatMap fun g => g.sessions).countP vis ∧
      ∀ g ∈ gs, ∀ s ∈ g.sessions, s.tracks ≠ none := by
  intro gs
  induction gs with
  | nil =>
    intro out h
    simp only [filterGroups] at h
    cases h
    simp
  | cons g gs ih =>
    intro out h
    rw [filterGroups] at h
    cases hst : filterSessions fav qw excl seg g.sessions with
    | error e =>
      rw [hst] at h
      simp [Bind.bind, Except.bind] at h
    | ok st =>
      rw [hst] at h
      cases hrest : filterGroups fav qw excl seg gs with
      | error e =>
        rw [hrest] at h
        simp [Bind.bind, Except.bind] at h
      | ok out' =>
        rw [hrest] at h
        simp only [Bind.bind, Except.bind, Except.ok.injEq] at h
        obtain ⟨h1, h2, h3, h4⟩ := filterSessions_ok hst
        obtain ⟨g1, g2, g3⟩ := ih hrest
        subst h
        constructor
        · simp only [List.map_cons, g1, h1, h3]
        · constructor
          · simp only [List.flatMap_cons, List.countP_append]
            rw [h1, h4, g2, g1]
          · intro g' hg' s hs
            rcases List.mem_cons.mp hg' with rfl | hg'
            · exact h2 s hs
            · exact g3 g' hg' s hs

theorem filterSessions_ok_of {fav : Str → Bool} {qw excl : List Str} {seg : Str} :
    ∀ {l : List NSession}, (∀ s ∈ l, s.tracks ≠ none) →
      ∃ out, filterSessions fav qw excl seg l = .ok out := by
  intro l
  induction l with
  | nil => intro h; exact ⟨([], false, 0), rfl⟩
  | cons s l ih =>
    intro h
    cases ht : s.tracks with
    | none => exact absurd ht (h s (List.mem_cons_self s l))
    | some ts =>
      obtain ⟨out', hout'⟩ := ih fun s' hs' => h s' (List.mem_cons_of_mem s hs')
      refine ⟨(applyHide fav qw excl seg s :: out'.1,
        ((applyHide fav qw excl seg s).hide == some false) || out'.2.1,
        (if (applyHide fav qw excl seg s).hide == some false then 1 else 0) + out'.2.2), ?_⟩
      rw [filterSessions, filterSession_some ht, hout']
      rfl

theorem filterGroups_err {fav : Str → Bool} {qw excl : List Str} {seg : Str} :
    ∀ {gs : List NGroup}, (∃ g ∈ gs, ∃ s ∈ g.sessions, s.tracks = none) →
      filterGroups fav qw excl seg gs = .error .typeError := by
  intro gs
  induction gs with
  | nil => intro h; simp at h
  | cons g gs ih =>
    intro h
    rw [filterGroups]
    by_cases hg : ∃ s ∈ g.sessions, s.tracks = none
    · rw [filterSessions_err hg]
      rfl
    · have hall : ∀ s ∈ g.sessions, s.tracks ≠ none := by
        intro s hs hn
        exact hg ⟨s, hs, hn⟩
      obtain ⟨st, hst⟩ := filterSessions_ok_of hall
      have hl : ∃ g' ∈ gs, ∃ s ∈ g'.sessions, s.tracks = none := by
        obtain ⟨g', hg', hs⟩ := h
        rcases List.mem_cons.mp hg' with rfl | hg'
        · exact absurd hs hg
        · exact ⟨g', hg', hs⟩
      rw [hst, ih hl]
      rfl

theorem getTimeline_ok_elim {fav : Str → Bool} {doc : NDoc} {dayIndex : Nat}
    {qt : Str} {excl : List Str} {seg : Str} {doc' : NDoc} {day' : NDay}
    (h : getTimeline fav doc dayIndex qt excl seg = .ok (doc', day')) :
    ∃ day out, doc.schedule[dayIndex]? = some day ∧
      filterGroups fav (queryWordsOf qt) excl seg day.groups = .ok out ∧
      day' = { date := day.date, groups := out.1, shownSessions := some out.2 } ∧
      doc' = { doc with schedule := doc.schedule.set dayIndex day' } := by
  unfold getTimeline at h
  cases hidx : doc.schedule[dayIndex]? with
  | none => rw [hidx] at h; cases h
  | some day =>
    rw [hidx] at h
    dsimp only at h
    cases hfg : filterGroups fav (queryWordsOf qt) excl seg day.groups with
    | error e =>
      rw [hfg] at h
      simp [Bind.bind, Except.bind] at h
    | ok out =>
      rw [hfg] at h
      simp only [Bind.bind, Except.bind, Except.ok.injEq, Prod.mk.injEq] at h
      obtain ⟨hdoc, hday⟩ := h
      exact ⟨day, out, rfl, hfg, hday.symm, by rw [← hdoc, ← hday]⟩

/-- Claim C1 (amended): after a successful `getTimeline` call, every session
of the returned day has its `hide` flag equal to the negated conjunction of
the query, track and segment predicates, where the query words are obtained
by lowercasing, replacing commas, periods and hyphens by spaces, splitting on
the space character and dropping tokens with no non-whitespace character (the
source splits on the space character, not on general whitespace). -/
theorem c1_hide_flags (fav : Str → Bool) (doc : NDoc) (dayIndex : Nat)
    (queryText : Str) (excludeTracks : List Str) (segment : Str)
    (doc' : NDoc) (day' : NDay)
    (h : getTimeline fav doc dayIndex queryText excludeTracks segment = .ok (doc', day')) :
    ∀ g ∈ day'.groups, ∀ s ∈ g.sessions, ∃ ts, s.tracks = some ts ∧
      s.hide = some (!(queryMatches (queryWordsOf queryText) s.name &&
        trackMatches excludeTracks ts && segmentMatches fav segment s.name)) := by
  obtain ⟨day, out, hidx, hfg, hday, hdoc⟩ := getTimeline_ok_elim h
  obtain ⟨o1, o2, o3⟩ := filterGroups_ok hfg
  subst hday
  intro g hg s hs
  simp only at hg
  rw [o1] at hg
  obtain ⟨g0, hg0, rfl⟩ := List.mem_map.mp hg
  simp only at hs
  obtain ⟨s0, hs0, rfl⟩ := List.mem_map.mp hs
  have hnn := o3 g0 hg0 s0 hs0
  cases hts : s0.tracks with
  | none => exact absurd hts hnn
  | some ts =>
    refine ⟨ts, ?_, ?_⟩
    · simp [applyHide, hts]
    · simp [applyHide, hts]

/-- Claim C1 counterexample: at `queryText = "x<TAB>y"` on a session named
"x", the code normalizes the query to the single word "x<TAB>y" (it splits on
the space character only), so the session is hidden, whereas the claim's
normalization ("split on whitespace") yields the words ["x", "y"] and demands
the session be shown. -/
theorem c1_counterexample :
    firstHide (getTimeline favNone docC1 0 (str "x\ty") [] allStr) = some true ∧
    (!(queryMatches (queryWordsSpec (str "x\ty")) (str "x") &&
        trackMatches [] [str "t"] && segmentMatches favNone allStr (str "x"))) = false := by
  constructor
  · decide
  · decide

/-- Claim C2: after a successful `getTimeline` call, the returned day's
`shownSessions` equals the number of sessions of that day whose `hide` flag
is `false`, and each group's `hide` flag is `false` exactly when the group
has at least one session with `hide = false`. -/
theorem c2_shown_sessions (fav : Str → Bool) (doc : NDoc) (dayIndex : Nat)
    (queryText : Str) (excludeTracks : List Str) (segment : Str)
    (doc' : NDoc) (day' : NDay)
    (h : getTimeline fav doc dayIndex queryText excludeTracks segment = .ok (doc', day')) :
    day'.shownSessions = some ((day'.groups.flatMap fun g => g.sessions).countP vis) ∧
    ∀ g ∈ day'.groups, g.hide = some (!(g.sessions.any vis)) := by
  obtain ⟨day, out, hidx, hfg, hday, hdoc⟩ := getTimeline_ok_elim h
  obtain ⟨o1, o2, o3⟩ := filterGroups_ok hfg
  subst hday
  constructor
  · simp only
    rw [o2]
  · intro g hg
    simp only at hg
    rw [o1] at hg
    obtain ⟨g0, hg0, rfl⟩ := List.mem_map.mp hg
    rfl

/-- Claim C5 (amended): `getTimeline` with an out-of-range `dayIndex` fails
with a `TypeError` (indexing past the end of `data.schedule` yields
`undefined` in JavaScript, and the immediately following
`day.shownSessions = 0` assignment throws a `TypeError`, not a
`RangeError`), with no partial result. -/
theorem c5_out_of_range (fav : Str → Bool) (doc : NDoc) (dayIndex : Nat)
    (queryText : Str) (excludeTracks : List Str) (segment : Str)
    (h : doc.schedule.length ≤ dayIndex) :
    getTimeline fav doc dayIndex queryText excludeTracks segment =
      .error .typeError := by
  unfold getTimeline
  rw [List.getElem?_eq_none h]

/-- Claim C5 counterexample: `getTimeline(99, ...)` on a one-day schedule
fails, but with a `TypeError`, not the `RangeError` the claim states. -/
theorem c5_counterexample :
    getTimeline favNone sampleNDoc 99 (str "") [] allStr =
      Except.error JsError.typeError ∧
    getTimeline favNone sampleNDoc 99 (str "") [] allStr ≠
      Except.error JsError.rangeError := by
  constructor
  · decide
  · decide

/-- Claim C10: `filterSession` dereferences `session.tracks` unconditionally
while normalization guards an absent `tracks` field: a raw document whose
schedule is present always normalizes successfully (even with sessions that
lack `tracks`), but any `getTimeline` call whose selected day contains such a
session throws a `TypeError` instead of producing a hide decision. -/
theorem c10_unguarded_track_access :
    (∀ (raw : RawDoc) (days : List Day), raw.schedule = some days →
        ∃ doc, processData raw = .ok doc) ∧
    (∀ (fav : Str → Bool) (doc : NDoc) (dayIndex : Nat) (queryText : Str)
        (excludeTracks : List Str) (segment : Str) (day : NDay),
        doc.schedule[dayIndex]? = some day →
        (∃ g ∈ day.groups, ∃ s ∈ g.sessions, s.tracks = none) →
        getTimeline fav doc dayIndex queryText excludeTracks segment =
          .error .typeError) := by
  constructor
  · intro raw days hs
    exact ⟨_, processData_some hs⟩
  · intro fav doc dayIndex qt excl seg day hidx hbad
    unfold getTimeline
    rw [hidx]
    dsimp only
    rw [filterGroups_err hbad]
    rfl

/-! Lemmas about the string comparison used by the accessors. -/

theorem cmpStr_swap : ∀ (a b : Str), cmpStr b a = (cmpStr a b).swap
  | [], [] => rfl
  | [], _ :: _ => rfl
  | _ :: _, [] => rfl
  | a :: as, b :: bs => by
    rcases Nat.lt_trichotomy a.toNat b.toNat with h | h | h
    · have h1 : compare a.toNat b.toNat = .lt := Nat.compare_eq_lt.mpr h
      have h2 : compare b.toNat a.toNat = .gt := Nat.compare_eq_gt.mpr h
      simp [cmpStr, h1, h2, Ordering.swap]
    · have h1 : compare a.toNat b.toNat = .eq := Nat.compare_eq_eq.mpr h
      have h2 : compare b.toNat a.toNat = .eq := Nat.compare_eq_eq.mpr h.symm
      simp [cmpStr, h1, h2, cmpStr_swap as bs]
    · have h1 : compare a.toNat b.toNat = .gt := Nat.compare_eq_gt.mpr h
      have h2 : compare b.toNat a.toNat = .lt := Nat.compare_eq_lt.mpr h
      simp [cmpStr, h1, h2, Ordering.swap]

theorem cmpStr_le_trans :
    ∀ (a b c : Str), cmpStr a b ≠ .gt → cmpStr b c ≠ .gt → cmpStr a c ≠ .gt
  | [], b, c => by
    intro h1 h2
    cases c <;> simp [cmpStr]
  | a :: as, [], c => by
    intro h1 h2
    simp [cmpStr] at h1
  | a :: as, b :: bs, [] => by
    intro h1 h2
    simp [cmpStr] at h2
  | a :: as, b :: bs, c :: cs => by
    intro h1 h2
    cases hxy : compare a.toNat b.toNat with
    | gt => rw [cmpStr, hxy] at h1; exact absurd rfl h1
    | lt =>
      have hab := Nat.compare_eq_lt.mp hxy
      cases hyz : compare b.toNat c.toNat with
      | gt => rw [cmpStr, hyz] at h2; exact absurd rfl h2
      | lt =>
        have hbc := Nat.compare_eq_lt.mp hyz
        have hac : compare a.toNat c.toNat = .lt := Nat.compare_eq_lt.mpr (by omega)
        rw [cmpStr, hac]
        simp
      | eq =>
        have hbc := Nat.compare_eq_eq.mp hyz
        have hac : compare a.toNat c.toNat = .lt := Nat.compare_eq_lt.mpr (by omega)
        rw [cmpStr, hac]
        simp
    | eq =>
      have hab := Nat.compare_eq_eq.mp hxy
      cases hyz : compare b.toNat c.toNat with
      | gt => rw [cmpStr, hyz] at h2; exact absurd rfl h2
      | lt =>
        have hbc := Nat.compare_eq_lt.mp hyz
        have hac : compare a.toNat c.toNat = .lt := Nat.compare_eq_lt.mpr (by omega)
        rw [cmpStr, hac]
        simp
      | eq =>
        have hbc := Nat.compare_eq_eq.mp hyz
        have hac : compare a.toNat c.toNat = .eq := Nat.compare_eq_eq.mpr (by omega)
        rw [cmpStr, hxy] at h1
        rw [cmpStr, hyz] at h2
        rw [cmpStr, hac]
        exact cmpStr_le_trans as bs cs h1 h2

theorem speakerLe_trans (a b c : NSpeaker) :
    speakerLe a b → speakerLe b c → speakerLe a c := by
  intro h1 h2
  simp only [speakerLe, decide_eq_true_eq] at h1 h2 ⊢
  exact cmpStr_le_trans _ _ _ h1 h2

theorem speakerLe_total (a b : NSpeaker) : speakerLe a b || speakerLe b a := by
  simp only [speakerLe, Bool.or_eq_true, decide_eq_true_eq]
  by_cases h : cmpStr (lastName a.name) (lastName b.name) = .gt
  · right
    rw [cmpStr_swap, h]
    simp [Ordering.swap]
  · left
    exact h

theorem strLe_trans (a b c : Str) : strLe a b → strLe b c → strLe a c := by
  intro h1 h2
  simp only [strLe, decide_eq_true_eq] at h1 h2 ⊢
  exact cmpStr_le_trans _ _ _ h1 h2

theorem strLe_total (a b : Str) : strLe a b || strLe b a := by
  simp only [strLe, Bool.or_eq_true, decide_eq_true_eq]
  by_cases h : cmpStr a b = .gt
  · right
    rw [cmpStr_swap, h]
    simp [Ordering.swap]
  · left
    exact h

/-- Claim C8: `getSpeakers` returns all speakers sorted ascending by last name
(the last space-separated token of the name, compared with the modelled
locale comparison), and speakers with equal last names keep their stable input
order (any tied pair that is a sublist of the input stays a sublist of the
output). -/
theorem c8_speakers_sorted (doc : NDoc) :
    ((getSpeakers doc).2).Perm doc.speakers ∧
    ((getSpeakers doc).2).Pairwise (fun a b => speakerLe a b = true) ∧
    (∀ a b : NSpeaker, speakerLe a b = true → speakerLe b a = true →
      [a, b].Sublist doc.speakers → [a, b].Sublist (getSpeakers doc).2) := by
  refine ⟨?_, ?_, ?_⟩
  · exact List.mergeSort_perm doc.speakers speakerLe
  · exact List.sorted_mergeSort speakerLe_trans speakerLe_total doc.speakers
  · intro a b hab hba hsub
    exact List.pair_sublist_mergeSort speakerLe_trans speakerLe_total hab hsub

/-- Claim C8 witness: on the concrete document with speakers "Ann Smith" and
"Bob Smith" (tied last names), the sorted output keeps the pair in input
order. -/
theorem c8_speakers_sorted_witness :
    speakerLe (mkNSpk (str "Ann Smith")) (mkNSpk (str "Bob Smith")) = true ∧
    [mkNSpk (str "Ann Smith"),
      mkNSpk (str "Bob Smith")].Sublist (getSpeakers docTie).2 := by
  refine ⟨by decide, ?_⟩
  exact (c8_speakers_sorted docTie).2.2 _ _ (by decide) (by decide)
    (List.Sublist.refl _)

theorem perm_pair {α : Type _} {a b : α} {l : List α} (h : l.Perm [a, b]) :
    l = [a, b] ∨ l = [b, a] := by
  have hlen : l.length = 2 := by simpa using h.length_eq
  obtain ⟨x, y, rfl⟩ := List.length_eq_two.mp hlen
  have hx : x ∈ [a, b] := h.mem_iff.mp (by simp)
  rcases List.mem_pair.mp hx with rfl | rfl
  · have hy : [y].Perm [b] := h.cons_inv
    rw [List.perm_singleton.mp hy]
    exact Or.inl rfl
  · have hswap : List.Perm [a, x] [x, a] := (List.Perm.swap a x []).symm
    have hy : [y].Perm [a] := (h.trans hswap).cons_inv
    rw [List.perm_singleton.mp hy]
    exact Or.inr rfl

/-- Claim C8 counterexample: on the document whose speakers are
"Ann Smith<TAB>A" and "Bob Apple", `getSpeakers` (which keys on the last
space-separated token, "Smith<TAB>A" vs "Apple") returns Bob Apple first,
but the claim's key — the last whitespace-separated token, "A" vs "Apple" —
demands Ann first: the returned order is not ascending under the claim's
comparator. -/
theorem c8_counterexample :
    (getSpeakers doc8).2 = [mkNSpk (str "Bob Apple"), mkNSpk (str "Ann Smith\tA")] ∧
    specSpeakerLe (mkNSpk (str "Bob Apple")) (mkNSpk (str "Ann Smith\tA")) = false := by
  refine ⟨?_, by decide⟩
  have hperm : ((getSpeakers doc8).2).Perm
      [mkNSpk (str "Ann Smith\tA"), mkNSpk (str "Bob Apple")] :=
    List.mergeSort_perm doc8.speakers speakerLe
  have hsorted : ((getSpeakers doc8).2).Pairwise fun a b => speakerLe a b = true :=
    List.sorted_mergeSort speakerLe_trans speakerLe_total doc8.speakers
  rcases perm_pair hperm with h | h
  · rw [h] at hsorted
    rcases hsorted with _ | ⟨h1, _⟩
    have := h1 _ (List.mem_cons_self _ _)
    revert this
    decide
  · exact h

/-! Frame lemmas for the mutation claim. -/

theorem scrub_applyHide (fav : Str → Bool) (qw excl : List Str) (seg : Str)
    (s : NSession) : scrubSession (applyHide fav qw excl seg s) = scrubSession s := rfl

/-- Claim C9 (amended): `getTimeline` changes only the `hide` flags and the
`shownSessions` counter on the selected day and leaves the rest of the
document untouched; `getMap` leaves the document unchanged; `getSpeakers` and
`getTracks` leave the schedule, the map pins and the other sequence unchanged
but reorder (sort in place) the cached speakers respectively tracks sequence,
keeping the same elements (a permutation). -/
theorem c9_mutation_frame :
    (∀ (fav : Str → Bool) (doc : NDoc) (dayIndex : Nat) (queryText : Str)
        (excludeTracks : List Str) (segment : Str) (doc' : NDoc) (day' : NDay),
        getTimeline fav doc dayIndex queryText excludeTracks segment = .ok (doc', day') →
        doc'.speakers = doc.speakers ∧ doc'.tracks = doc.tracks ∧ doc'.map = doc.map ∧
        doc'.schedule.length = doc.schedule.length ∧
        (∀ j, j ≠ dayIndex → doc'.schedule[j]? = doc.schedule[j]?) ∧
        doc'.schedule[dayIndex]? = some day' ∧
        ∀ day, doc.schedule[dayIndex]? = some day → scrubDay day' = scrubDay day) ∧
    (∀ doc : NDoc, getMap doc = (doc, doc.map)) ∧
    (∀ doc : NDoc, (getSpeakers doc).1.schedule = doc.schedule ∧
        (getSpeakers doc).1.tracks = doc.tracks ∧ (getSpeakers doc).1.map = doc.map ∧
        ((getSpeakers doc).1.speakers).Perm doc.speakers) ∧
    (∀ doc : NDoc, (getTracks doc).1.schedule = doc.schedule ∧
        (getTracks doc).1.speakers = doc.speakers ∧ (getTracks doc).1.map = doc.map ∧
        ((getTracks doc).1.tracks).Perm doc.tracks) := by
  refine ⟨?_, fun doc => rfl, ?_, ?_⟩
  · intro fav doc dayIndex qt excl seg doc' day' h
    obtain ⟨day, out, hidx, hfg, hday, hdoc⟩ := getTimeline_ok_elim h
    obtain ⟨o1, o2, o3⟩ := filterGroups_ok hfg
    have hlt : dayIndex < doc.schedule.length := by
      by_cases hlt : dayIndex < doc.schedule.length
      · exact hlt
      · rw [List.getElem?_eq_none (by omega)] at hidx
        cases hidx
    subst hdoc
    refine ⟨rfl, rfl, rfl, by simp, ?_, ?_, ?_⟩
    · intro j hj
      simp only
      exact List.getElem?_set_ne (Ne.symm hj)
    · simp only
      rw [List.getElem?_set_self hlt]
    · intro day0 hday0
      rw [hidx] at hday0
      cases hday0
      subst hday
      simp only [scrubDay, NDay.mk.injEq]
      refine ⟨trivial, ?_, trivial⟩
      rw [o1, List.map_map]
      apply List.map_congr_left
      intro g hg
      simp only [Function.comp_apply, scrubGroup, NGroup.mk.injEq]
      refine ⟨trivial, ?_, trivial⟩
      rw [List.map_map]
      apply List.map_congr_left
      intro s hs
      exact scrub_applyHide fav (queryWordsOf qt) excl seg s
  · intro doc
    exact ⟨rfl, rfl, rfl, List.mergeSort_perm doc.speakers speakerLe⟩
  · intro doc
    exact ⟨rfl, rfl, rfl, List.mergeSort_perm doc.tracks strLe⟩

/-- Claim C9 counterexample: `getSpeakers` does not leave the cached document
unchanged — on `doc9` (speakers listed as "Zed Young", "Ann Black") it
reorders the cached speakers sequence in place. -/
theorem c9_counterexample : (getSpeakers doc9).1 ≠ doc9 := by
  intro heq
  have hsp : (getSpeakers doc9).1.speakers = List.mergeSort doc9.speakers speakerLe := rfl
  rw [heq] at hsp
  have hpw := List.sorted_mergeSort speakerLe_trans speakerLe_total doc9.speakers
  rw [← hsp] at hpw
  have hzd : doc9.speakers = [mkNSpk (str "Zed Young"), mkNSpk (str "Ann Black")] := by
    decide
  rw [hzd] at hpw
  rcases hpw with _ | ⟨h1, _⟩
  have := h1 _ (List.mem_cons_self _ _)
  revert this
  decide

/-! Theorems about `load()`. -/

/-- Claim C4: `load()` is idempotent via caching — with a cached document the
call resolves immediately with that document and performs no fetch; a first
call that resolves performs exactly one fetch and caches its document, and
any second call resolves with the identical document and performs no further
fetch (so two calls trigger exactly one fetch in total). -/
theorem c4_load_caching :
    (∀ (d : NDoc) (f : FetchResult), load (some d) f = (.resolved (some d) d, 0)) ∧
    (∀ (f : FetchResult) (st : Option NDoc) (d : NDoc) (c : Nat),
        load none f = (.resolved st d, c) →
        c = 1 ∧ st = some d ∧ ∀ f2, load st f2 = (.resolved st d, 0)) := by
  constructor
  · intro d f
    rfl
  · intro f st d c h
    cases f with
    | err => simp [load] at h
    | ok raw =>
      cases hp : processData raw with
      | error e => simp [load, hp] at h
      | ok d0 =>
        simp only [load, hp, Prod.mk.injEq, LoadOutcome.resolved.injEq] at h
        obtain ⟨⟨h1, h2⟩, h3⟩ := h
        subst h1
        subst h2
        exact ⟨h3.symm, rfl, fun f2 => rfl⟩

/-- Claim C4 witness: loading the sample document from an empty cache fetches
once and resolves; the second call resolves with the identical document and
fetches nothing. -/
theorem c4_load_caching_witness :
    load none (FetchResult.ok sampleRaw) =
      (LoadOutcome.resolved (some sampleNDoc) sampleNDoc, 1) ∧
    (1 = 1 ∧ some sampleNDoc = some sampleNDoc ∧
      ∀ f2, load (some sampleNDoc) f2 =
        (LoadOutcome.resolved (some sampleNDoc) sampleNDoc, 0)) :=
  ⟨by decide,
    c4_load_caching.2 (FetchResult.ok sampleRaw) (some sampleNDoc) sampleNDoc 1 (by decide)⟩

/-- Claim C6 (amended): `load()` never rejects its promise — the subscription
has no error callback, so a failed fetch leaves the promise pending forever
(with one fetch attempted and nothing cached), and a malformed document
(missing `schedule`) makes `processData` throw inside the callback, likewise
leaving the promise pending; no retry is performed. -/
theorem c6_load_never_rejects :
    (∀ (st : Option NDoc) (f : FetchResult) (st' : Option NDoc) (e : JsError),
        (load st f).1 ≠ LoadOutcome.rejected st' e) ∧
    load none FetchResult.err = (.pending none, 1) ∧
    (∀ raw : RawDoc, raw.schedule = none → load none (.ok raw) = (.pending none, 1)) := by
  refine ⟨?_, rfl, ?_⟩
  · intro st f st' e
    cases st with
    | some d => simp [load]
    | none =>
      cases f with
      | err => simp [load]
      | ok raw => cases hp : processData raw <;> simp [load, hp]
  · intro raw hs
    have hp : processData raw = .error .typeError := by simp [processData, hs]
    simp [load, hp]

/-- Claim C6 witness: at the concrete malformed document with no `schedule`
field, `load()` attempts one fetch and leaves the promise pending (it does
not reject). -/
theorem c6_load_never_rejects_witness :
    rawNoSchedule.schedule = none ∧
    load none (.ok rawNoSchedule) = (.pending none, 1) ∧
    (load none FetchResult.err).1 ≠ LoadOutcome.rejected none JsError.loadError :=
  ⟨rfl, c6_load_never_rejects.2.2 rawNoSchedule rfl,
    c6_load_never_rejects.1 none FetchResult.err none JsError.loadError⟩

/-- Claim C6 counterexample: when the fetch fails, the returned promise is
left pending — it is not rejected with a `LoadError` as the claim states. -/
theorem c6_counterexample :
    (load none FetchResult.err).1 = LoadOutcome.pending none ∧
    LoadOutcome.pending none ≠ LoadOutcome.rejected none JsError.loadError := by
  constructor
  · rfl
  · decide

/-! Witnesses for the remaining hypothesis-bearing claim theorems. -/

/-- Claim C1 witness: the amended hide-flag formula evaluated on the sample
document at `getTimeline(0, "intro", [], "all")`. -/
theorem c1_hide_flags_witness :
    getTimeline favNone sampleNDoc 0 (str "intro") [] allStr = .ok (tl1doc, tl1day) ∧
    ∀ g ∈ tl1day.groups, ∀ s ∈ g.sessions, ∃ ts, s.tracks = some ts ∧
      s.hide = some (!(queryMatches (queryWordsOf (str "intro")) s.name &&
        trackMatches [] ts && segmentMatches favNone allStr s.name)) :=
  ⟨by decide,
    c1_hide_flags favNone sampleNDoc 0 (str "intro") [] allStr tl1doc tl1day (by decide)⟩

/-- Claim C2 witness: session counts and group flags on the sample document
at `getTimeline(0, "intro", [], "all")`. -/
theorem c2_shown_sessions_witness :
    getTimeline favNone sampleNDoc 0 (str "intro") [] allStr = .ok (tl1doc, tl1day) ∧
    tl1day.shownSessions = some ((tl1day.groups.flatMap fun g => g.sessions).countP vis) ∧
    ∀ g ∈ tl1day.groups, g.hide = some (!(g.sessions.any vis)) :=
  ⟨by decide,
    c2_shown_sessions favNone sampleNDoc 0 (str "intro") [] allStr tl1doc tl1day (by decide)⟩

/-- Claim C3 witness: the speaker-session links of the normalized sample
document. -/
theorem c3_speaker_session_links_witness :
    processData sampleRaw = .ok sampleNDoc ∧
    ((∀ ns ∈ flatSessions sampleNDoc,
        ns.speakers = resolveIdxs (sampleNDoc.speakers.map NSpeaker.name) ns.speakerNames ∧
        ns.speakers.map (fun i => (sampleNDoc.speakers.map NSpeaker.name).getD i []) =
          (ns.speakerNames.getD []).filter
            (fun n => (sampleNDoc.speakers.map NSpeaker.name).contains n) ∧
        ∀ i ∈ ns.speakers, i < sampleNDoc.speakers.length) ∧
    (∀ i j : Nat,
        ((sampleNDoc.speakers.getD i default).sessions).count j =
          (((flatSessions sampleNDoc).getD j default).speakers).count i)) :=
  ⟨by decide, c3_speaker_session_links sampleRaw sampleNDoc (by decide)⟩

/-- Claim C5 witness: the amended out-of-range behavior at `dayIndex = 99` on
the one-day sample schedule. -/
theorem c5_out_of_range_witness :
    sampleNDoc.schedule.length ≤ 99 ∧
    getTimeline favNone sampleNDoc 99 (str "") [] allStr = .error .typeError :=
  ⟨by decide, c5_out_of_range favNone sampleNDoc 99 (str "") [] allStr (by decide)⟩

/-- Claim C7 witness: the derived track list of the normalized sample
document. -/
theorem c7_track_set_witness :
    processData sampleRaw = .ok sampleNDoc ∧
    (sampleNDoc.tracks = firstSeen (rawTrackList sampleRaw) ∧ sampleNDoc.tracks.Nodup ∧
      ∀ t, t ∈ sampleNDoc.tracks ↔ t ∈ rawTrackList sampleRaw) :=
  ⟨by decide, c7_track_set sampleRaw sampleNDoc (by decide)⟩

/-- Claim C9 witness: the frame property of `getTimeline` at the sample
query. -/
theorem c9_mutation_frame_witness :
    tl1doc.speakers = sampleNDoc.speakers ∧ tl1doc.tracks = sampleNDoc.tracks ∧
    tl1doc.map = sampleNDoc.map ∧
    tl1doc.schedule.length = sampleNDoc.schedule.length ∧
    (∀ j, j ≠ 0 → tl1doc.schedule[j]? = sampleNDoc.schedule[j]?) ∧
    tl1doc.schedule[0]? = some tl1day ∧
    ∀ day, sampleNDoc.schedule[0]? = some day → scrubDay tl1day = scrubDay day :=
  c9_mutation_frame.1 favNone sampleNDoc 0 (str "intro") [] allStr tl1doc tl1day (by decide)

/-- Claim C10 witness: the raw document with a track-less session normalizes,
and the timeline query over it throws. -/
theorem c10_unguarded_track_access_witness :
    (∃ doc, processData rawC10 = .ok doc) ∧
    getTimeline favNone docC10 0 (str "") [] allStr = .error .typeError :=
  ⟨c10_unguarded_track_access.1 rawC10
      [{ date := []
         groups := [{ time := [], sessions := [mkSession (str "No Tracks") none none] }] }]
      rfl,
    c10_unguarded_track_access.2 favNone docC10 0 (str "") [] allStr dayC10
      (by decide) (by decide)⟩

end ConfData
